import Mathlib

/-!
Verification of the barrier-synchronized parallel sort-merge engine in
`src/bin/11-threads/f16-barrier.rs`.

The program sorts a buffer `NUMS : [c_long; NUMNUM]` by splitting it into
`NTHR` chunks of `TNUM = NUMNUM / NTHR` elements, sorting each chunk in a
worker thread, and merging the sorted chunks with a linear-scan k-way merge.
We embed the sequential computations (the merge loop, the partition scheme,
the spawn loop, the buffer initialization loop) as Lean functions and prove
or refute the specified properties.

The element type `c_long` is embedded as `Int`; the sentinel
`c_long::max_value()` used by `merge` is `longMax = 2^63 - 1`.
The buffer is embedded as a total function `Nat → Int`; the memory-safety
claim about the merge shows that every read the merge performs on the
selected cursor is at an index below `NUMNUM`.  The cursor array
`idx: [usize; NTHR]` is embedded as a `List Nat` of length `NTHR`.
-/

/-- `c_long::max_value()` on a 64-bit platform, `2^63 - 1`. -/
def longMax : Int := 9223372036854775807

/-- `const NTHR: usize = 8` — the number of worker threads. -/
def NTHR : Nat := 8

/-- `const NUMNUM: usize = 8_000_000` — the buffer length. -/
def NUMNUM : Nat := 8000000

/-- `const TNUM: usize = NUMNUM / NTHR` — the chunk length per worker. -/
def TNUM : Nat := NUMNUM / NTHR

/-- One step of the inner scan of `merge`
(`if idx[i] < (i + 1) * TNUM && NUMS[idx[i]] < num { num = NUMS[idx[i]]; minidx = i; }`),
carried out on the accumulator `(num, minidx)`, generalized over the chunk
length `tnum`. -/
def scanStep (tnum : Nat) (nums : Nat → Int) (idx : List Nat)
    (acc : Int × Nat) (i : Nat) : Int × Nat :=
  if idx.getD i 0 < (i + 1) * tnum ∧ nums (idx.getD i 0) < acc.1 then
    (nums (idx.getD i 0), i)
  else acc

/-- The inner loop `for i in 0..NTHR` of `merge`, starting from
`num = c_long::max_value()` and `minidx = 0`. -/
def scan (nthr tnum : Nat) (nums : Nat → Int) (idx : List Nat) : Int × Nat :=
  (List.range nthr).foldl (scanStep tnum nums idx) (longMax, 0)

/-- The mutable state of the `merge` loop: the cursor array `idx` and the
output vector `snums`. -/
structure MergeState where
  idx : List Nat
  snums : List Int
deriving DecidableEq

/-- One iteration of the outer loop of `merge`: run the scan, push
`NUMS[idx[minidx]]`, and advance `idx[minidx]` by one. -/
def mergeStep (nthr tnum : Nat) (nums : Nat → Int) (s : MergeState) : MergeState :=
  let m := (scan nthr tnum nums s.idx).2
  ⟨s.idx.set m (s.idx.getD m 0 + 1), s.snums ++ [nums (s.idx.getD m 0)]⟩

/-- The state of `merge` after `t` iterations of the outer loop; cursor `i`
starts at `i * TNUM`, the output starts empty. -/
def mergeIter (nthr tnum : Nat) (nums : Nat → Int) : Nat → MergeState
  | 0 => ⟨(List.range nthr).map (fun i => i * tnum), []⟩
  | t + 1 => mergeStep nthr tnum nums (mergeIter nthr tnum nums t)

/-- `merge()` from the source, generalized over the number of chunks `nthr`,
the chunk length `tnum` and the iteration count `numnum` (in the source these
are the constants `NTHR`, `TNUM`, `NUMNUM`): run the outer loop `numnum`
times and return the output vector. -/
def merge (nthr tnum numnum : Nat) (nums : Nat → Int) : List Int :=
  (mergeIter nthr tnum nums numnum).snums

/-- The error taxonomy of the partition planner. -/
inductive PlanError where
  | InvalidConfiguration
deriving DecidableEq

/-- The partition scheme of the source: worker `i` owns the contiguous range
`[i * (L / N), (i + 1) * (L / N))` of the buffer, written as a
`(start, length)` pair.  This generalizes `const TNUM: usize = NUMNUM / NTHR`
and the spawn loop `for i in 0..NTHR { ... (i * TNUM) ... }` of `main`,
where worker `i` sorts `TNUM` elements starting at offset `i * TNUM`. -/
def partitions (L N : Nat) : List (Nat × Nat) :=
  (List.range N).map fun i => (i * (L / N), L / N)

/-- Modelled from the spec: the repository has no standalone `plan` function
(the partition parameters are the fixed constants `NTHR` and `TNUM`); the
spec's contract `plan(L, N) -> Partition[]` fails with `InvalidConfiguration`
if `N ≤ 0` or `N > L`, and otherwise yields the source's partition scheme. -/
def plan (L N : Nat) : Except PlanError (List (Nat × Nat)) :=
  if N = 0 ∨ L < N then .error .InvalidConfiguration else .ok (partitions L N)

/-- The error taxonomy of the coordinator. -/
inductive RunError where
  | ThreadCreationFailed
deriving DecidableEq

/-- Modelled from the spec: the spawn loop of `main`
(`let err = pthread_create(...); if err != 0 { panic!(...) }`), with the
outcome of each `pthread_create` call (an error code, `0` on success) given
by the environment as `errs`, and the process-aborting `panic!` embedded as
the spec's terminal `ThreadCreationFailed` error.  The workers are spawned
in index order and the loop aborts at the first failure. -/
def spawnLoop (errs : Nat → Int) : List Nat → Except RunError Unit
  | [] => .ok ()
  | i :: rest => if errs i ≠ 0 then .error .ThreadCreationFailed else spawnLoop errs rest

/-- Modelled from the spec: the coordinator `run_sort` — spawn one worker per
chunk and, if every spawn succeeded, produce the merge output over the
(worker-sorted) buffer.  A failed spawn aborts the whole run with no
partial result. -/
def runSort (errs : Nat → Int) (nums : Nat → Int) : Except RunError (List Int) :=
  match spawnLoop errs (List.range NTHR) with
  | .error e => .error e
  | .ok _ => .ok (merge NTHR TNUM NUMNUM nums)

/-- Modelled from the spec: libc `qsort` with the `cmp` comparator of the
source (ascending signed-integer order) is external to the repository; a
worker's sort is modelled as replacing its chunk's contents by their
ascending sort. -/
def workerSort (l : List Int) : List Int := l.insertionSort (· ≤ ·)

/-- The initialization loop of `main`
(`for i in 0..NUMNUM - 1 { NUMS[i] = rng.gen(); }`) run for `n` steps,
starting from the static initializer `NUMS = [0; NUMNUM]` (the buffer is
embedded as a total function, zero everywhere); `rand i` is the value
`rng.gen()` returns at step `i`. -/
def writeLoop (rand : Nat → Int) : Nat → (Nat → Int)
  | 0 => fun _ => 0
  | n + 1 => Function.update (writeLoop rand n) n (rand n)

/-- The buffer contents after the full initialization loop of `main`, which
runs for `NUMNUM - 1` steps. -/
def initNums (rand : Nat → Int) : Nat → Int := writeLoop rand (NUMNUM - 1)

/-- A concrete buffer for the sentinel counterexamples: every element is
`c_long::max_value()` except the first element of chunk 1 (index `TNUM`),
which is `0`.  Every chunk of this buffer is sorted in ascending order. -/
def badNums : Nat → Int := fun i => if i = TNUM then 0 else longMax

/-- The cursor array reached by `merge` on `badNums` after `t + 1`
iterations: cursor 0 sits at `t`, cursor 1 has consumed its first element,
all other cursors are still at their chunk starts. -/
def badIdx (t : Nat) : List Nat :=
  [t, 1000001, 2000000, 3000000, 4000000, 5000000, 6000000, 7000000]

/-!
## Basic facts about the merge loop state
-/

lemma mergeIter_succ (nthr tnum : Nat) (nums : Nat → Int) (t : Nat) :
    mergeIter nthr tnum nums (t + 1) = mergeStep nthr tnum nums (mergeIter nthr tnum nums t) :=
  rfl

lemma mergeIter_idx_length (nthr tnum : Nat) (nums : Nat → Int) (t : Nat) :
    (mergeIter nthr tnum nums t).idx.length = nthr := by
  induction t with
  | zero => simp [mergeIter]
  | succ t ih => simp [mergeIter_succ, mergeStep, ih]

lemma mergeIter_snums_length (nthr tnum : Nat) (nums : Nat → Int) (t : Nat) :
    (mergeIter nthr tnum nums t).snums.length = t := by
  induction t with
  | zero => simp [mergeIter]
  | succ t ih => simp [mergeIter_succ, mergeStep, ih]

/-!
## The inner scan

`scan` returns the running strict minimum over the in-bound cursors together
with the index of the first cursor attaining it; if no in-bound cursor's
element is below the sentinel, the accumulator keeps its initial value
`(longMax, 0)`.
-/

/-- The scan found no element below the sentinel among the first `k` cursors:
the accumulator still holds its initial value and every in-bound cursor among
them points at an element `≥ longMax`. -/
def ScanNone (tnum : Nat) (nums : Nat → Int) (idx : List Nat) (k : Nat)
    (r : Int × Nat) : Prop :=
  r = (longMax, 0) ∧
    ∀ j, j < k → idx.getD j 0 < (j + 1) * tnum → longMax ≤ nums (idx.getD j 0)

/-- The scan over the first `k` cursors selected a genuine minimum: `r.2` is
an in-bound cursor holding the minimum element among all in-bound cursors
below `k`, and it is the first such cursor (ties break to the lowest index). -/
def ScanGood (tnum : Nat) (nums : Nat → Int) (idx : List Nat) (k : Nat)
    (r : Int × Nat) : Prop :=
  r.2 < k ∧ idx.getD r.2 0 < (r.2 + 1) * tnum ∧ r.1 = nums (idx.getD r.2 0) ∧
    r.1 < longMax ∧
    (∀ j, j < k → idx.getD j 0 < (j + 1) * tnum → r.1 ≤ nums (idx.getD j 0)) ∧
    (∀ j, j < r.2 → idx.getD j 0 < (j + 1) * tnum → r.1 < nums (idx.getD j 0))

lemma scanAux_cases (tnum : Nat) (nums : Nat → Int) (idx : List Nat) (k : Nat) :
    ScanNone tnum nums idx k ((List.range k).foldl (scanStep tnum nums idx) (longMax, 0)) ∨
    ScanGood tnum nums idx k ((List.range k).foldl (scanStep tnum nums idx) (longMax, 0)) := by
  induction k with
  | zero =>
    left
    exact ⟨rfl, fun j hj => absurd hj (Nat.not_lt_zero j)⟩
  | succ k ih =>
    rw [List.range_succ, List.foldl_append, List.foldl_cons, List.foldl_nil]
    set r := (List.range k).foldl (scanStep tnum nums idx) (longMax, 0) with hr
    by_cases h : idx.getD k 0 < (k + 1) * tnum ∧ nums (idx.getD k 0) < r.1
    · have hstep : scanStep tnum nums idx r k = (nums (idx.getD k 0), k) := by
        rw [scanStep, if_pos h]
      rw [hstep]
      right
      rcases ih with ⟨hval, hall⟩ | ⟨hlt, hinb, hval, hmax, hle, hfirst⟩
      · have h4 : nums (idx.getD k 0) < longMax := by
          have := h.2; rw [hval] at this; exact this
        refine ⟨Nat.lt_succ_self k, h.1, rfl, h4, ?_, ?_⟩
        · intro j hj hb
          rcases Nat.lt_succ_iff_lt_or_eq.mp hj with hj' | hj'
          · exact le_of_lt (lt_of_lt_of_le h4 (hall j hj' hb))
          · subst hj'; exact le_refl _
        · intro j hj hb
          exact lt_of_lt_of_le h4 (hall j hj hb)
      · have h4 : nums (idx.getD k 0) < longMax := lt_trans h.2 hmax
        refine ⟨Nat.lt_succ_self k, h.1, rfl, h4, ?_, ?_⟩
        · intro j hj hb
          rcases Nat.lt_succ_iff_lt_or_eq.mp hj with hj' | hj'
          · exact le_of_lt (lt_of_lt_of_le h.2 (hle j hj' hb))
          · subst hj'; exact le_refl _
        · intro j hj hb
          exact lt_of_lt_of_le h.2 (hle j hj hb)
    · have hstep : scanStep tnum nums idx r k = r := by
        rw [scanStep, if_neg h]
      rw [hstep]
      push_neg at h
      rcases ih with ⟨hval, hall⟩ | ⟨hlt, hinb, hval, hmax, hle, hfirst⟩
      · left
        refine ⟨hval, fun j hj hb => ?_⟩
        rcases Nat.lt_succ_iff_lt_or_eq.mp hj with hj' | hj'
        · exact hall j hj' hb
        · subst hj'
          rw [hval] at h
          exact h hb
      · right
        refine ⟨lt_trans hlt (Nat.lt_succ_self k), hinb, hval, hmax, fun j hj hb => ?_, hfirst⟩
        rcases Nat.lt_succ_iff_lt_or_eq.mp hj with hj' | hj'
        · exact hle j hj' hb
        · subst hj'
          exact h hb

/-- Case analysis for the full scan of `merge`. -/
lemma scan_cases (nthr tnum : Nat) (nums : Nat → Int) (idx : List Nat) :
    ScanNone tnum nums idx nthr (scan nthr tnum nums idx) ∨
    ScanGood tnum nums idx nthr (scan nthr tnum nums idx) :=
  scanAux_cases tnum nums idx nthr

/-!
## The core invariant of the merge loop

Under the assumption that every buffer element is strictly below the
sentinel, each iteration of the outer loop selects an in-bound cursor, so
the cursors never leave their chunks and the output is exactly the multiset
of the consumed chunk prefixes.
-/

lemma getD_set_self (l : List Nat) (m v : Nat) (h : m < l.length) :
    (l.set m v).getD m 0 = v := by
  simp [List.getD_eq_getElem?_getD, List.getElem?_set_self h]

lemma getD_set_ne (l : List Nat) (m v i : Nat) (h : m ≠ i) :
    (l.set m v).getD i 0 = l.getD i 0 := by
  simp [List.getD_eq_getElem?_getD, List.getElem?_set_ne h]

lemma getD_init (nthr tnum i : Nat) (h : i < nthr) :
    ((List.range nthr).map (fun j => j * tnum)).getD i 0 = i * tnum := by
  simp [List.getD_eq_getElem?_getD, List.getElem?_map, List.getElem?_range h]

/-- Updating the summand at one index `m < n` of a sum over `Finset.range n`:
if the new summand at `m` grows by `v` and all others are unchanged, the sum
grows by `v`. -/
lemma sum_range_update_add {M : Type} [AddCommMonoid M] (n m : Nat) (hm : m < n)
    (f g : Nat → M) (v : M)
    (hne : ∀ i, i < n → i ≠ m → g i = f i) (hv : g m = f m + v) :
    (Finset.range n).sum g = (Finset.range n).sum f + v := by
  have hmem : m ∈ Finset.range n := Finset.mem_range.mpr hm
  rw [← Finset.sum_erase_add (Finset.range n) g hmem,
    ← Finset.sum_erase_add (Finset.range n) f hmem]
  have hcongr : ((Finset.range n).erase m).sum g = ((Finset.range n).erase m).sum f :=
    Finset.sum_congr rfl fun i hi =>
      hne i (Finset.mem_range.mp (Finset.mem_of_mem_erase hi)) (Finset.ne_of_mem_erase hi)
  rw [hcongr, hv, add_assoc]

/-- The invariant maintained by the outer loop of `merge` when no element
equals the sentinel: every cursor lies inside its chunk, the total number of
cursor advances equals the iteration count, and the output holds exactly the
multiset of all consumed chunk prefixes. -/
def CoreInv (nthr tnum : Nat) (nums : Nat → Int) (t : Nat) (s : MergeState) : Prop :=
  (∀ i, i < nthr → i * tnum ≤ s.idx.getD i 0 ∧ s.idx.getD i 0 ≤ (i + 1) * tnum) ∧
  (Finset.range nthr).sum (fun i => s.idx.getD i 0 - i * tnum) = t ∧
  (s.snums : Multiset Int) =
    (Finset.range nthr).sum
      (fun i => ((List.range' (i * tnum) (s.idx.getD i 0 - i * tnum)).map nums : Multiset Int))

lemma exists_inbound (nthr tnum : Nat) (nums : Nat → Int) (t : Nat) (s : MergeState)
    (hInv : CoreInv nthr tnum nums t s) (ht : t < nthr * tnum) :
    ∃ i, i < nthr ∧ s.idx.getD i 0 < (i + 1) * tnum := by
  by_contra hc
  push_neg at hc
  have hall : ∀ i ∈ Finset.range nthr, s.idx.getD i 0 - i * tnum = tnum := by
    intro i hi
    have hi' := Finset.mem_range.mp hi
    have h1 := (hInv.1 i hi').2
    have h2 := hc i hi'
    have e : (i + 1) * tnum = i * tnum + tnum := Nat.succ_mul i tnum
    rw [e] at h1 h2
    omega
  have : (Finset.range nthr).sum (fun i => s.idx.getD i 0 - i * tnum) = nthr * tnum := by
    rw [Finset.sum_congr rfl hall, Finset.sum_const, Finset.card_range, smul_eq_mul]
  rw [hInv.2.1] at this
  omega

lemma select_good (nthr tnum : Nat) (nums : Nat → Int) (t : Nat) (s : MergeState)
    (Hmax : ∀ j, j < nthr * tnum → nums j < longMax)
    (hInv : CoreInv nthr tnum nums t s) (ht : t < nthr * tnum) :
    ScanGood tnum nums s.idx nthr (scan nthr tnum nums s.idx) := by
  rcases scan_cases nthr tnum nums s.idx with hnone | hgood
  · exfalso
    obtain ⟨i, hi, hb⟩ := exists_inbound nthr tnum nums t s hInv ht
    have hidx_lt : s.idx.getD i 0 < nthr * tnum :=
      lt_of_lt_of_le hb (Nat.mul_le_mul_right tnum hi)
    have h1 := Hmax _ hidx_lt
    have h2 := hnone.2 i hi hb
    exact absurd h1 (not_lt.mpr h2)
  · exact hgood


lemma core_inv (nthr tnum : Nat) (nums : Nat → Int)
    (Hmax : ∀ j, j < nthr * tnum → nums j < longMax) :
    ∀ t, t ≤ nthr * tnum → CoreInv nthr tnum nums t (mergeIter nthr tnum nums t) := by
  intro t
  induction t with
  | zero =>
    intro _
    have hgd : ∀ i, i < nthr → (mergeIter nthr tnum nums 0).idx.getD i 0 = i * tnum :=
      fun i hi => getD_init nthr tnum i hi
    refine ⟨fun i hi => ?_, ?_, ?_⟩
    · rw [hgd i hi]
      exact ⟨le_refl _, Nat.mul_le_mul_right tnum (Nat.le_succ i)⟩
    · exact Finset.sum_eq_zero fun i hi => by
        rw [hgd i (Finset.mem_range.mp hi)]; exact Nat.sub_self _
    · have hz : (Finset.range nthr).sum
          (fun i => ((List.range' (i * tnum)
            ((mergeIter nthr tnum nums 0).idx.getD i 0 - i * tnum)).map nums : Multiset Int))
          = 0 := by
        refine Finset.sum_eq_zero fun i hi => ?_
        rw [hgd i (Finset.mem_range.mp hi), Nat.sub_self]
        rfl
      rw [hz]
      rfl
  | succ t ih =>
    intro ht
    have ht' : t < nthr * tnum := Nat.lt_of_succ_le ht
    have hInv := ih (le_of_lt ht')
    set s := mergeIter nthr tnum nums t with hs
    have hlen : s.idx.length = nthr := mergeIter_idx_length nthr tnum nums t
    obtain ⟨hmlt, hminb, hval, hmax, hle, hfirst⟩ :=
      select_good nthr tnum nums t s Hmax hInv ht'
    set m := (scan nthr tnum nums s.idx).2 with hm
    have hmlow : m * tnum ≤ s.idx.getD m 0 := (hInv.1 m hmlt).1
    have h1 : ∀ i, i < nthr →
        i * tnum ≤ (s.idx.set m (s.idx.getD m 0 + 1)).getD i 0 ∧
        (s.idx.set m (s.idx.getD m 0 + 1)).getD i 0 ≤ (i + 1) * tnum := by
      intro i hi
      by_cases him : i = m
      · subst him
        rw [getD_set_self _ _ _ (hlen ▸ hmlt)]
        exact ⟨le_trans hmlow (Nat.le_succ _), Nat.succ_le_of_lt hminb⟩
      · rw [getD_set_ne _ _ _ _ (Ne.symm him)]
        exact hInv.1 i hi
    have h2 : (Finset.range nthr).sum
        (fun i => (s.idx.set m (s.idx.getD m 0 + 1)).getD i 0 - i * tnum) = t + 1 := by
      have hsum := sum_range_update_add nthr m hmlt
        (fun i => s.idx.getD i 0 - i * tnum)
        (fun i => (s.idx.set m (s.idx.getD m 0 + 1)).getD i 0 - i * tnum) 1
        (fun i _ hne => by
          simp only []
          rw [getD_set_ne _ _ _ _ (Ne.symm hne)])
        (by
          simp only []
          rw [getD_set_self _ _ _ (hlen ▸ hmlt)]
          omega)
      rw [hsum, hInv.2.1]
    have h3 : ((s.snums ++ [nums (s.idx.getD m 0)] : List Int) : Multiset Int) =
        (Finset.range nthr).sum
          (fun i => ((List.range' (i * tnum)
            ((s.idx.set m (s.idx.getD m 0 + 1)).getD i 0 - i * tnum)).map nums : Multiset Int)) := by
      have hchunk : ((List.range' (m * tnum)
            ((s.idx.set m (s.idx.getD m 0 + 1)).getD m 0 - m * tnum)).map nums : Multiset Int)
          = ((List.range' (m * tnum) (s.idx.getD m 0 - m * tnum)).map nums : Multiset Int)
            + (([nums (s.idx.getD m 0)] : List Int) : Multiset Int) := by
        rw [getD_set_self _ _ _ (hlen ▸ hmlt)]
        have hc : s.idx.getD m 0 + 1 - m * tnum = (s.idx.getD m 0 - m * tnum) + 1 := by omega
        rw [hc, List.range'_1_concat]
        have hback : m * tnum + (s.idx.getD m 0 - m * tnum) = s.idx.getD m 0 := by omega
        rw [hback, List.map_append]
        exact (Multiset.coe_add _ _).symm
      have hsum := sum_range_update_add nthr m hmlt
        (fun i => ((List.range' (i * tnum) (s.idx.getD i 0 - i * tnum)).map nums : Multiset Int))
        (fun i => ((List.range' (i * tnum)
          ((s.idx.set m (s.idx.getD m 0 + 1)).getD i 0 - i * tnum)).map nums : Multiset Int))
        (([nums (s.idx.getD m 0)] : List Int) : Multiset Int)
        (fun i _ hne => by
          simp only []
          rw [getD_set_ne _ _ _ _ (Ne.symm hne)])
        (by simp only []; exact hchunk)
      rw [hsum, ← hInv.2.2]
      exact (Multiset.coe_add _ _).symm
    exact ⟨h1, h2, h3⟩

/-- After all `nthr * tnum` iterations (with no sentinel element in the
buffer), every cursor sits exactly at its chunk's upper bound. -/
lemma cursors_final (nthr tnum : Nat) (nums : Nat → Int)
    (Hmax : ∀ j, j < nthr * tnum → nums j < longMax) :
    ∀ i, i < nthr →
      (mergeIter nthr tnum nums (nthr * tnum)).idx.getD i 0 = (i + 1) * tnum := by
  have hInv := core_inv nthr tnum nums Hmax (nthr * tnum) (le_refl _)
  set s := mergeIter nthr tnum nums (nthr * tnum) with hs
  have hle : ∀ i ∈ Finset.range nthr, s.idx.getD i 0 - i * tnum ≤ tnum := by
    intro i hi
    have hb := (hInv.1 i (Finset.mem_range.mp hi)).2
    have e : (i + 1) * tnum = i * tnum + tnum := Nat.succ_mul i tnum
    omega
  have hconst : (Finset.range nthr).sum (fun _ => tnum) = nthr * tnum := by
    rw [Finset.sum_const, Finset.card_range, smul_eq_mul]
  have hsum : (Finset.range nthr).sum (fun i => s.idx.getD i 0 - i * tnum)
      = (Finset.range nthr).sum (fun _ => tnum) := by
    rw [hInv.2.1, hconst]
  have hall := (Finset.sum_eq_sum_iff_of_le hle).mp hsum
  intro i hi
  have h1 := hall i (Finset.mem_range.mpr hi)
  have h2 := (hInv.1 i hi).1
  have e : (i + 1) * tnum = i * tnum + tnum := Nat.succ_mul i tnum
  omega

/-- Concatenating the `nthr` chunk index ranges yields the full index range
of the buffer (as multisets of mapped buffer values). -/
lemma chunks_join (nthr tnum : Nat) (nums : Nat → Int) :
    (Finset.range nthr).sum
      (fun i => ((List.range' (i * tnum) tnum).map nums : Multiset Int))
      = ((List.range (nthr * tnum)).map nums : Multiset Int) := by
  induction nthr with
  | zero => simp
  | succ k ih =>
    rw [Finset.sum_range_succ, ih]
    have hsplit : List.range ((k + 1) * tnum)
        = List.range (k * tnum) ++ List.range' (k * tnum) tnum := by
      rw [List.range_eq_range', List.range_eq_range', Nat.succ_mul]
      rw [Nat.add_comm (k * tnum) tnum]
      simpa using (List.range'_append_1 0 (k * tnum) tnum).symm
    rw [hsplit, List.map_append]
    exact (Multiset.coe_add _ _).symm

/-- If no buffer element reaches the sentinel, the merge output is exactly
the multiset of the first `nthr * tnum` buffer elements. -/
lemma merge_multiset_eq (nthr tnum : Nat) (nums : Nat → Int)
    (Hmax : ∀ j, j < nthr * tnum → nums j < longMax) :
    ((merge nthr tnum (nthr * tnum) nums : List Int) : Multiset Int)
      = ((List.range (nthr * tnum)).map nums : Multiset Int) := by
  have hInv := core_inv nthr tnum nums Hmax (nthr * tnum) (le_refl _)
  have hfin := cursors_final nthr tnum nums Hmax
  have hstep : ((merge nthr tnum (nthr * tnum) nums : List Int) : Multiset Int)
      = (Finset.range nthr).sum
          (fun i => ((List.range' (i * tnum)
            ((mergeIter nthr tnum nums (nthr * tnum)).idx.getD i 0 - i * tnum)).map nums
            : Multiset Int)) := hInv.2.2
  rw [hstep, ← chunks_join nthr tnum nums]
  refine Finset.sum_congr rfl fun i hi => ?_
  rw [hfin i (Finset.mem_range.mp hi)]
  have e1 : (i + 1) * tnum = i * tnum + tnum := Nat.succ_mul i tnum
  have e : (i + 1) * tnum - i * tnum = tnum := by rw [e1]; omega
  rw [e]

/-!
## Sortedness of the merge output
-/

/-- Every chunk of the buffer is individually sorted in ascending order. -/
def ChunkSorted (nthr tnum : Nat) (nums : Nat → Int) : Prop :=
  ∀ i, i < nthr → ∀ a b, i * tnum ≤ a → a ≤ b → b < (i + 1) * tnum → nums a ≤ nums b

/-- The sortedness invariant of the merge loop: the output so far is sorted,
and no element already emitted exceeds any in-bound cursor's element. -/
def SortInv (nthr tnum : Nat) (nums : Nat → Int) (s : MergeState) : Prop :=
  s.snums.Sorted (· ≤ ·) ∧
  ∀ x ∈ s.snums, ∀ i, i < nthr →
    s.idx.getD i 0 < (i + 1) * tnum → x ≤ nums (s.idx.getD i 0)

lemma sort_inv (nthr tnum : Nat) (nums : Nat → Int)
    (Hmax : ∀ j, j < nthr * tnum → nums j < longMax)
    (Hsorted : ChunkSorted nthr tnum nums) :
    ∀ t, t ≤ nthr * tnum → SortInv nthr tnum nums (mergeIter nthr tnum nums t) := by
  intro t
  induction t with
  | zero =>
    intro _
    refine ⟨List.sorted_nil, fun x hx => ?_⟩
    exact absurd hx (List.not_mem_nil x)
  | succ t ih =>
    intro ht
    have ht' : t < nthr * tnum := Nat.lt_of_succ_le ht
    have hSI := ih (le_of_lt ht')
    have hInv := core_inv nthr tnum nums Hmax t (le_of_lt ht')
    set s := mergeIter nthr tnum nums t with hs
    have hlen : s.idx.length = nthr := mergeIter_idx_length nthr tnum nums t
    obtain ⟨hmlt, hminb, hval, hmax, hle, hfirst⟩ :=
      select_good nthr tnum nums t s Hmax hInv ht'
    set m := (scan nthr tnum nums s.idx).2 with hm
    have hmlow : m * tnum ≤ s.idx.getD m 0 := (hInv.1 m hmlt).1
    have hvge : ∀ x ∈ s.snums, x ≤ nums (s.idx.getD m 0) :=
      fun x hx => hSI.2 x hx m hmlt hminb
    have hsorted' : (s.snums ++ [nums (s.idx.getD m 0)]).Sorted (· ≤ ·) := by
      refine List.pairwise_append.mpr ⟨hSI.1, List.pairwise_singleton _ _, ?_⟩
      intro a ha b hb
      rw [List.mem_singleton] at hb
      subst hb
      exact hvge a ha
    have hbound' : ∀ x ∈ s.snums ++ [nums (s.idx.getD m 0)], ∀ i, i < nthr →
        (s.idx.set m (s.idx.getD m 0 + 1)).getD i 0 < (i + 1) * tnum →
        x ≤ nums ((s.idx.set m (s.idx.getD m 0 + 1)).getD i 0) := by
      intro x hx i hi hb
      rcases List.mem_append.mp hx with hxs | hxv
      · by_cases him : i = m
        · rw [him] at hb ⊢
          rw [getD_set_self _ _ _ (hlen ▸ hmlt)] at hb ⊢
          have step1 : x ≤ nums (s.idx.getD m 0) := hvge x hxs
          have step2 : nums (s.idx.getD m 0) ≤ nums (s.idx.getD m 0 + 1) :=
            Hsorted m hmlt (s.idx.getD m 0) (s.idx.getD m 0 + 1) hmlow
              (Nat.le_succ _) hb
          exact le_trans step1 step2
        · rw [getD_set_ne _ _ _ _ (Ne.symm him)] at hb ⊢
          exact hSI.2 x hxs i hi hb
      · rw [List.mem_singleton] at hxv
        subst hxv
        by_cases him : i = m
        · rw [him] at hb ⊢
          rw [getD_set_self _ _ _ (hlen ▸ hmlt)] at hb ⊢
          exact Hsorted m hmlt (s.idx.getD m 0) (s.idx.getD m 0 + 1) hmlow
            (Nat.le_succ _) hb
        · rw [getD_set_ne _ _ _ _ (Ne.symm him)] at hb ⊢
          have := hle i hi hb
          rw [hval] at this
          exact this
    exact ⟨hsorted', hbound'⟩

/-- If no buffer element reaches the sentinel and every chunk is sorted,
the merge output is sorted end to end. -/
lemma merge_sorted_general (nthr tnum : Nat) (nums : Nat → Int)
    (Hmax : ∀ j, j < nthr * tnum → nums j < longMax)
    (Hsorted : ChunkSorted nthr tnum nums) :
    (merge nthr tnum (nthr * tnum) nums).Sorted (· ≤ ·) :=
  (sort_inv nthr tnum nums Hmax Hsorted (nthr * tnum) (le_refl _)).1

/-!
## Memory safety of the merge loop

These facts hold for every buffer, including buffers containing the
sentinel value: cursor 0 advances at most once per iteration, so even the
fallback read `NUMS[idx[0]]` (taken when the scan accepted no cursor) stays
inside the buffer.
-/

lemma idx0_le (nthr tnum : Nat) (nums : Nat → Int) (h0 : 0 < nthr) (t : Nat) :
    (mergeIter nthr tnum nums t).idx.getD 0 0 ≤ t := by
  induction t with
  | zero =>
    show ((List.range nthr).map (fun j => j * tnum)).getD 0 0 ≤ 0
    rw [getD_init nthr tnum 0 h0, Nat.zero_mul]
  | succ t ih =>
    set s := mergeIter nthr tnum nums t with hs
    have hlen : s.idx.length = nthr := mergeIter_idx_length nthr tnum nums t
    show (s.idx.set (scan nthr tnum nums s.idx).2
        (s.idx.getD (scan nthr tnum nums s.idx).2 0 + 1)).getD 0 0 ≤ t + 1
    by_cases hm0 : (scan nthr tnum nums s.idx).2 = 0
    · rw [hm0, getD_set_self _ _ _ (hlen ▸ h0)]
      omega
    · rw [getD_set_ne _ _ _ _ hm0]
      exact le_trans ih (Nat.le_succ t)

/-- The index of the buffer read `NUMS[idx[minidx]]` performed at iteration
`t` of the merge loop. -/
def readIndex (nthr tnum : Nat) (nums : Nat → Int) (t : Nat) : Nat :=
  (mergeIter nthr tnum nums t).idx.getD
    ((scan nthr tnum nums (mergeIter nthr tnum nums t).idx).2) 0

lemma merge_read_safe (nthr tnum : Nat) (nums : Nat → Int) (h0 : 0 < nthr)
    (t : Nat) (ht : t < nthr * tnum) :
    readIndex nthr tnum nums t < nthr * tnum := by
  set s := mergeIter nthr tnum nums t with hs
  rcases scan_cases nthr tnum nums s.idx with hnone | hgood
  · rw [readIndex, ← hs, hnone.1]
    exact lt_of_le_of_lt (idx0_le nthr tnum nums h0 t) ht
  · obtain ⟨hmlt, hminb, _, _, _, _⟩ := hgood
    exact lt_of_lt_of_le hminb (Nat.mul_le_mul_right tnum hmlt)

/-!
## The sentinel counterexample run

On the buffer `badNums` (all elements `c_long::max_value()` except a single
`0` at index `TNUM`, the first element of chunk 1) the merge consumes the
`0` in its first iteration; afterwards every scan rejects every cursor
(strict `<` against the sentinel), so `minidx` keeps its default `0` and
cursor 0 is advanced unconditionally — eventually past its chunk bound —
while the fallback read walks the whole buffer, re-reading index `TNUM`.
-/

lemma mergeStep_mk (nthr tnum : Nat) (nums : Nat → Int) (a : List Nat) (b : List Int) :
    mergeStep nthr tnum nums ⟨a, b⟩
      = ⟨a.set (scan nthr tnum nums a).2 (a.getD (scan nthr tnum nums a).2 0 + 1),
         b ++ [nums (a.getD (scan nthr tnum nums a).2 0)]⟩ := rfl

lemma bad_scanStep0 (t : Nat) :
    scanStep 1000000 badNums (badIdx t) (longMax, 0) 0 = (longMax, 0) := by
  have hg : (badIdx t).getD 0 0 = t := rfl
  rw [scanStep]
  rw [if_neg]
  rw [hg]
  rintro ⟨h1, h2⟩
  by_cases ht : t = TNUM
  · rw [ht] at h1
    revert h1
    decide
  · have hv : badNums t = longMax := by simp [badNums, ht]
    rw [hv] at h2
    exact lt_irrefl _ h2

lemma bad_scanStep_reject (t k v : Nat) (hg : (badIdx t).getD k 0 = v)
    (hv : badNums v = longMax) :
    scanStep 1000000 badNums (badIdx t) (longMax, 0) k = (longMax, 0) := by
  rw [scanStep]
  rw [if_neg]
  rintro ⟨h1, h2⟩
  rw [hg, hv] at h2
  exact lt_irrefl _ h2

lemma bad_scan (t : Nat) : scan 8 1000000 badNums (badIdx t) = (longMax, 0) := by
  show (List.range 8).foldl (scanStep 1000000 badNums (badIdx t)) (longMax, 0) = (longMax, 0)
  rw [show List.range 8 = [0, 1, 2, 3, 4, 5, 6, 7] from rfl]
  rw [List.foldl_cons, bad_scanStep0 t,
    List.foldl_cons, bad_scanStep_reject t 1 1000001 rfl (by decide),
    List.foldl_cons, bad_scanStep_reject t 2 2000000 rfl (by decide),
    List.foldl_cons, bad_scanStep_reject t 3 3000000 rfl (by decide),
    List.foldl_cons, bad_scanStep_reject t 4 4000000 rfl (by decide),
    List.foldl_cons, bad_scanStep_reject t 5 5000000 rfl (by decide),
    List.foldl_cons, bad_scanStep_reject t 6 6000000 rfl (by decide),
    List.foldl_cons, bad_scanStep_reject t 7 7000000 rfl (by decide),
    List.foldl_nil]

/-- The state of the merge loop on `badNums` after `t + 1` iterations. -/
lemma bad_state (t : Nat) :
    mergeIter 8 1000000 badNums (t + 1) = ⟨badIdx t, 0 :: (List.range t).map badNums⟩ := by
  induction t with
  | zero => decide
  | succ t ih =>
    rw [mergeIter_succ, ih, mergeStep_mk, bad_scan t]
    rw [MergeState.mk.injEq]
    refine ⟨rfl, ?_⟩
    simp [List.range_succ, badIdx]

/-- The full merge output on `badNums`: the `0` at index `TNUM` is emitted
first, then the fallback read walks buffer indices `0, 1, ...,
NUMNUM - 2` — re-reading the `0` at index `TNUM` a second time and never
reading index `NUMNUM - 1`. -/
lemma bad_merge : merge NTHR TNUM NUMNUM badNums
    = 0 :: (List.range 7999999).map badNums := by
  show (mergeIter NTHR TNUM badNums NUMNUM).snums = _
  rw [show (NTHR : Nat) = 8 from rfl, show (TNUM : Nat) = 1000000 from rfl,
    show (NUMNUM : Nat) = 7999999 + 1 from rfl, bad_state 7999999]

lemma count_zero_map_badNums (n : Nat) (hn : TNUM < n) :
    ((List.range n).map badNums).count 0 = 1 := by
  rw [List.count_eq_countP, List.countP_map]
  have hcongr : List.countP ((fun x => x == (0 : Int)) ∘ badNums) (List.range n)
      = List.countP (fun j => j == TNUM) (List.range n) := by
    apply List.countP_congr
    intro x _
    by_cases h : x = TNUM
    · simp [Function.comp, badNums, h]
    · simp [Function.comp, badNums, h, longMax]
  rw [hcongr, ← List.count_eq_countP]
  exact List.count_eq_one_of_mem (List.nodup_range n) (List.mem_range.mpr hn)

/-- Every chunk of `badNums` is sorted ascending: chunk 1 is `0, longMax,
..., longMax` and every other chunk is constantly `longMax`. -/
lemma bad_chunkSorted : ChunkSorted NTHR TNUM badNums := by
  intro i hi a b ha hab hb
  by_cases hbT : b = TNUM
  · subst hbT
    have hT : (TNUM : Nat) = 1000000 := rfl
    rw [hT] at ha hab hb ⊢
    have haa : a = 1000000 := by omega
    rw [haa]
  · have hvb : badNums b = longMax := by simp [badNums, hbT]
    rw [hvb]
    by_cases haT : a = TNUM
    · have hva : badNums a = 0 := by simp [badNums, haT]
      rw [hva, longMax]
      norm_num
    · have hva : badNums a = longMax := by simp [badNums, haT]
      rw [hva]

/-- If some spawn attempt in the list fails, the spawn loop aborts with
`ThreadCreationFailed`. -/
lemma spawnLoop_mem_error (errs : Nat → Int) (l : List Nat) (i : Nat)
    (hi : i ∈ l) (hne : errs i ≠ 0) :
    spawnLoop errs l = .error .ThreadCreationFailed := by
  induction l with
  | nil => cases hi
  | cons a rest ih =>
    rw [spawnLoop]
    by_cases ha : errs a ≠ 0
    · rw [if_pos ha]
    · rw [if_neg ha]
      rcases List.mem_cons.mp hi with h | h
      · subst h
        exact absurd hne ha
      · exact ih h

/-- Evaluation of the initialization loop: index `j` holds `rand j` if the
loop has already visited it and the initial `0` otherwise. -/
lemma writeLoop_eval (rand : Nat → Int) (n j : Nat) :
    writeLoop rand n j = if j < n then rand j else 0 := by
  induction n with
  | zero => simp [writeLoop]
  | succ n ih =>
    show Function.update (writeLoop rand n) n (rand n) j = _
    by_cases hj : j = n
    · subst hj
      rw [Function.update_same, if_pos (Nat.lt_succ_self j)]
    · rw [Function.update_noteq hj, ih]
      by_cases hlt : j < n
      · rw [if_pos hlt, if_pos (by omega)]
      · rw [if_neg hlt, if_neg (by omega)]

/-!
## The concrete scenario of the spec

Input `[5, 3, 8, 1, 9, 2, 7, 4]` with `N = 2` workers over chunks of
length `4`.
-/

/-- The scenario buffer after each of the two workers has sorted its chunk. -/
def c8Buf : List Int := workerSort [5, 3, 8, 1] ++ workerSort [9, 2, 7, 4]

/-- The scenario buffer as a total function. -/
def c8 : Nat → Int := fun i => c8Buf.getD i 0

lemma c8_state1 : mergeIter 2 4 c8 1 = ⟨[1, 4], [1]⟩ := by decide
lemma c8_state2 : mergeIter 2 4 c8 2 = ⟨[1, 5], [1, 2]⟩ := by
  rw [show (2 : Nat) = 1 + 1 from rfl, mergeIter_succ, c8_state1]; decide
lemma c8_state3 : mergeIter 2 4 c8 3 = ⟨[2, 5], [1, 2, 3]⟩ := by
  rw [show (3 : Nat) = 2 + 1 from rfl, mergeIter_succ, c8_state2]; decide
lemma c8_state4 : mergeIter 2 4 c8 4 = ⟨[2, 6], [1, 2, 3, 4]⟩ := by
  rw [show (4 : Nat) = 3 + 1 from rfl, mergeIter_succ, c8_state3]; decide
lemma c8_state5 : mergeIter 2 4 c8 5 = ⟨[3, 6], [1, 2, 3, 4, 5]⟩ := by
  rw [show (5 : Nat) = 4 + 1 from rfl, mergeIter_succ, c8_state4]; decide
lemma c8_state6 : mergeIter 2 4 c8 6 = ⟨[3, 7], [1, 2, 3, 4, 5, 7]⟩ := by
  rw [show (6 : Nat) = 5 + 1 from rfl, mergeIter_succ, c8_state5]; decide
lemma c8_state7 : mergeIter 2 4 c8 7 = ⟨[4, 7], [1, 2, 3, 4, 5, 7, 8]⟩ := by
  rw [show (7 : Nat) = 6 + 1 from rfl, mergeIter_succ, c8_state6]; decide
lemma c8_state8 : mergeIter 2 4 c8 8 = ⟨[4, 8], [1, 2, 3, 4, 5, 7, 8, 9]⟩ := by
  rw [show (8 : Nat) = 7 + 1 from rfl, mergeIter_succ, c8_state7]; decide

/-- The cursor index `minidx` selected by the scan at iteration `t` of the
merge loop. -/
def selIdx (nthr tnum : Nat) (nums : Nat → Int) (t : Nat) : Nat :=
  (scan nthr tnum nums (mergeIter nthr tnum nums t).idx).2

/-!
## Claims
-/

/-- C1, counterexample: on the buffer `badNums` — all elements
`c_long::max_value()` except a single `0` at index `TNUM` — the merge
output is not a permutation of the buffer contents: the `0` is emitted
twice and the last buffer element is never read. -/
theorem spec_C1_counterexample :
    ¬ (merge NTHR TNUM NUMNUM badNums).Perm ((List.range NUMNUM).map badNums) := by
  intro hperm
  have hc := hperm.count_eq 0
  rw [bad_merge, List.count_cons_self,
    count_zero_map_badNums 7999999 (by decide),
    count_zero_map_badNums NUMNUM (by decide)] at hc
  omega

/-- C1, amended: for every input buffer all of whose elements are strictly
below `c_long::max_value()`, the merge output is a permutation of the
buffer contents. -/
theorem spec_C1_amended (nums : Nat → Int)
    (Hmax : ∀ j, j < NUMNUM → nums j < longMax) :
    (merge NTHR TNUM NUMNUM nums).Perm ((List.range NUMNUM).map nums) := by
  have e : NTHR * TNUM = NUMNUM := rfl
  have Hmax' : ∀ j, j < NTHR * TNUM → nums j < longMax := by rw [e]; exact Hmax
  have h := merge_multiset_eq NTHR TNUM nums Hmax'
  rw [e] at h
  exact Multiset.coe_eq_coe.mp h

/-- C1, witness for the amended claim at the all-zero buffer. -/
theorem spec_C1_witness :
    (merge NTHR TNUM NUMNUM (fun _ => 0)).Perm ((List.range NUMNUM).map (fun _ => 0)) :=
  spec_C1_amended (fun _ => 0) (fun _ _ => show (0 : Int) < longMax by decide)

/-- C2, counterexample: every chunk of `badNums` is individually sorted
ascending, yet the merge output is not non-decreasing (it starts
`0, longMax, ...` and later contains another `0`). -/
theorem spec_C2_counterexample :
    ChunkSorted NTHR TNUM badNums ∧
    ¬ (merge NTHR TNUM NUMNUM badNums).Sorted (· ≤ ·) := by
  refine ⟨bad_chunkSorted, ?_⟩
  intro hsorted
  rw [bad_merge] at hsorted
  have hsplit : (List.range 7999999).map badNums
      = longMax :: (List.range' 1 7999998).map badNums := by
    rw [List.range_eq_range', show (7999999 : Nat) = 7999998 + 1 from rfl,
      List.range'_succ, List.map_cons]
    have h0 : badNums 0 = longMax := by
      simp [badNums]
      decide
    rw [h0]
  rw [hsplit] at hsorted
  obtain ⟨-, hsorted'⟩ := List.pairwise_cons.mp hsorted
  obtain ⟨hLM, -⟩ := List.pairwise_cons.mp hsorted'
  have hmem : (0 : Int) ∈ (List.range' 1 7999998).map badNums := by
    refine List.mem_map.mpr ⟨1000000, ?_, ?_⟩
    · rw [List.mem_range'_1]
      omega
    · rw [show (1000000 : Nat) = TNUM from rfl]
      simp [badNums]
  have habs := hLM 0 hmem
  rw [longMax] at habs
  norm_num at habs

/-- C2, amended: for every input buffer whose chunks are each individually
sorted ascending and all of whose elements are strictly below
`c_long::max_value()`, the merge output is non-decreasing end to end. -/
theorem spec_C2_amended (nums : Nat → Int)
    (Hmax : ∀ j, j < NUMNUM → nums j < longMax)
    (Hsorted : ChunkSorted NTHR TNUM nums) :
    (merge NTHR TNUM NUMNUM nums).Sorted (· ≤ ·) := by
  have e : NTHR * TNUM = NUMNUM := rfl
  have Hmax' : ∀ j, j < NTHR * TNUM → nums j < longMax := by rw [e]; exact Hmax
  have h := merge_sorted_general NTHR TNUM nums Hmax' Hsorted
  rw [e] at h
  exact h

/-- C2, witness for the amended claim at the all-zero buffer. -/
theorem spec_C2_witness :
    (merge NTHR TNUM NUMNUM (fun _ => 0)).Sorted (· ≤ ·) :=
  spec_C2_amended (fun _ => 0) (fun _ _ => show (0 : Int) < longMax by decide)
    (fun _ _ _ _ _ _ _ => le_refl 0)

/-- C3, counterexample: on `badNums`, at iteration `1000001` cursor 0
already sits at its chunk's upper bound `1 * TNUM` (it is exhausted), yet
the iteration advances it once more — an exhausted cursor participates
again, because the scan (strict `<` against the sentinel) accepted no
cursor and `minidx` kept its default `0`. -/
theorem spec_C3_counterexample :
    (mergeIter NTHR TNUM badNums 1000001).idx.getD 0 0 = (0 + 1) * TNUM ∧
    (mergeIter NTHR TNUM badNums 1000002).idx.getD 0 0 = (0 + 1) * TNUM + 1 := by
  constructor
  · show (mergeIter 8 1000000 badNums 1000001).idx.getD 0 0 = (0 + 1) * 1000000
    rw [show (1000001 : Nat) = 1000000 + 1 from rfl, bad_state 1000000]
    rfl
  · show (mergeIter 8 1000000 badNums 1000002).idx.getD 0 0 = (0 + 1) * 1000000 + 1
    rw [show (1000002 : Nat) = 1000001 + 1 from rfl, bad_state 1000001]
    rfl

/-- C3, amended: `merge` performs exactly `NUMNUM` iterations (its output
has length `NUMNUM`), and — provided every buffer element is strictly
below `c_long::max_value()` — each iteration selects an in-bound cursor
holding the minimum element over all in-bound cursors, with ties broken in
favour of the lowest cursor index, appends that element, and advances
exactly that cursor by one. -/
theorem spec_C3_amended (nums : Nat → Int)
    (Hmax : ∀ j, j < NUMNUM → nums j < longMax) (t : Nat) (ht : t < NUMNUM) :
    (merge NTHR TNUM NUMNUM nums).length = NUMNUM ∧
    selIdx NTHR TNUM nums t < NTHR ∧
    (mergeIter NTHR TNUM nums t).idx.getD (selIdx NTHR TNUM nums t) 0
      < (selIdx NTHR TNUM nums t + 1) * TNUM ∧
    (∀ j, j < NTHR →
      (mergeIter NTHR TNUM nums t).idx.getD j 0 < (j + 1) * TNUM →
      nums (readIndex NTHR TNUM nums t)
        ≤ nums ((mergeIter NTHR TNUM nums t).idx.getD j 0)) ∧
    (∀ j, j < selIdx NTHR TNUM nums t →
      (mergeIter NTHR TNUM nums t).idx.getD j 0 < (j + 1) * TNUM →
      nums (readIndex NTHR TNUM nums t)
        < nums ((mergeIter NTHR TNUM nums t).idx.getD j 0)) ∧
    (mergeIter NTHR TNUM nums (t + 1)).idx
      = (mergeIter NTHR TNUM nums t).idx.set (selIdx NTHR TNUM nums t)
          (readIndex NTHR TNUM nums t + 1) ∧
    (mergeIter NTHR TNUM nums (t + 1)).snums
      = (mergeIter NTHR TNUM nums t).snums ++ [nums (readIndex NTHR TNUM nums t)] := by
  have e : NTHR * TNUM = NUMNUM := rfl
  have Hmax' : ∀ j, j < NTHR * TNUM → nums j < longMax := by rw [e]; exact Hmax
  have ht' : t < NTHR * TNUM := by rw [e]; exact ht
  have hInv := core_inv NTHR TNUM nums Hmax' t (le_of_lt ht')
  obtain ⟨hmlt, hminb, hval, hmax, hle, hfirst⟩ :=
    select_good NTHR TNUM nums t (mergeIter NTHR TNUM nums t) Hmax' hInv ht'
  refine ⟨?_, ?_, ?_, ?_, ?_, ?_, ?_⟩
  · exact mergeIter_snums_length NTHR TNUM nums NUMNUM
  · exact hmlt
  · exact hminb
  · intro j hj hb
    have h := hle j hj hb
    rw [hval] at h
    exact h
  · intro j hj hb
    have h := hfirst j hj hb
    rw [hval] at h
    exact h
  · rfl
  · rfl

/-- C3, witness for the amended claim at the all-zero buffer, iteration 0. -/
theorem spec_C3_witness :
    selIdx NTHR TNUM (fun _ => 0) 0 < NTHR ∧
    (mergeIter NTHR TNUM (fun _ => 0) 1).snums
      = (mergeIter NTHR TNUM (fun _ => 0) 0).snums
        ++ [(fun _ => (0 : Int)) (readIndex NTHR TNUM (fun _ => 0) 0)] :=
  ⟨(spec_C3_amended (fun _ => 0) (fun _ _ => show (0 : Int) < longMax by decide) 0
      (by decide)).2.1,
   (spec_C3_amended (fun _ => 0) (fun _ _ => show (0 : Int) < longMax by decide) 0
      (by decide)).2.2.2.2.2.2⟩

/-- C4, counterexample: at the valid configuration `L = 5`, `N = 2`
(`1 ≤ N ≤ L`), the plan succeeds with chunks `[(0, 2), (2, 2)]` whose union
is `[0, 4)` — buffer index `4` is not covered, so the union is not exactly
`[0, L)`. -/
theorem spec_C4_counterexample :
    plan 5 2 = .ok (partitions 5 2) ∧ (4 : Nat) < 5 ∧
    ¬ ∃ i, i < 2 ∧ i * (5 / 2) ≤ 4 ∧ 4 < (i + 1) * (5 / 2) := by
  refine ⟨rfl, by decide, ?_⟩
  rintro ⟨i, hi, h2, h3⟩
  omega

/-- C4, amended: for every configuration with `1 ≤ N ≤ L` where `N` divides
`L` (in particular the code's fixed `N = NTHR = 8`, `L = NUMNUM`,
`TNUM = NUMNUM / NTHR`), the plan assigns worker `i` the range
`[i * (L / N), (i + 1) * (L / N))`; these ranges are pairwise disjoint, in
ascending start order, and their union is exactly `[0, L)`. -/
theorem spec_C4_amended (L N : Nat) (h1 : 1 ≤ N) (h2 : N ≤ L) (h3 : N ∣ L) :
    plan L N = .ok (partitions L N) ∧
    (∀ i, i < N → (partitions L N).getD i (0, 0) = (i * (L / N), L / N)) ∧
    (∀ i j, i < j → j < N → i * (L / N) < j * (L / N)) ∧
    (∀ i j k, i < j → j < N →
      ¬(i * (L / N) ≤ k ∧ k < (i + 1) * (L / N) ∧
        j * (L / N) ≤ k ∧ k < (j + 1) * (L / N))) ∧
    (∀ k, k < L ↔ ∃ i, i < N ∧ i * (L / N) ≤ k ∧ k < (i + 1) * (L / N)) := by
  have hq : 0 < L / N := Nat.div_pos h2 (by omega)
  have hLq : L / N * N = L := Nat.div_mul_cancel h3
  refine ⟨?_, ?_, ?_, ?_, ?_⟩
  · rw [plan, if_neg]
    push_neg
    exact ⟨by omega, by omega⟩
  · intro i hi
    simp [partitions, List.getD_eq_getElem?_getD, List.getElem?_map, List.getElem?_range hi]
  · intro i j hij hjN
    exact (mul_lt_mul_right hq).mpr hij
  · rintro i j k hij hjN ⟨ha, hb, hc, hd⟩
    have hle2 : (i + 1) * (L / N) ≤ j * (L / N) := Nat.mul_le_mul_right (L / N) hij
    exact lt_irrefl k (lt_of_lt_of_le (lt_of_lt_of_le hb hle2) hc)
  · intro k
    constructor
    · intro hk
      refine ⟨k / (L / N), ?_, Nat.div_mul_le_self k (L / N), ?_⟩
      · rw [Nat.div_lt_iff_lt_mul hq]
        calc k < L := hk
          _ = L / N * N := hLq.symm
          _ = N * (L / N) := Nat.mul_comm _ _
      · calc k = L / N * (k / (L / N)) + k % (L / N) := (Nat.div_add_mod k (L / N)).symm
          _ < L / N * (k / (L / N)) + L / N :=
            Nat.add_lt_add_left (Nat.mod_lt k hq) _
          _ = L / N * (k / (L / N) + 1) := (Nat.mul_succ _ _).symm
          _ = (k / (L / N) + 1) * (L / N) := Nat.mul_comm _ _
    · rintro ⟨i, hiN, -, hup⟩
      have hle2 : (i + 1) * (L / N) ≤ N * (L / N) :=
        Nat.mul_le_mul_right (L / N) hiN
      calc k < (i + 1) * (L / N) := hup
        _ ≤ N * (L / N) := hle2
        _ = L / N * N := Nat.mul_comm _ _
        _ = L := hLq

/-- C4, witness for the amended claim at the code's fixed configuration. -/
theorem spec_C4_witness :
    plan NUMNUM NTHR = .ok (partitions NUMNUM NTHR) ∧
    ∀ k, k < NUMNUM ↔
      ∃ i, i < NTHR ∧ i * (NUMNUM / NTHR) ≤ k ∧ k < (i + 1) * (NUMNUM / NTHR) :=
  ⟨(spec_C4_amended NUMNUM NTHR (by decide) (by decide) (by decide)).1,
   (spec_C4_amended NUMNUM NTHR (by decide) (by decide) (by decide)).2.2.2.2⟩

/-- C6 (spec-modelled): the partition planner fails with
`InvalidConfiguration` whenever `N ≤ 0` (i.e. `N = 0` over `usize`) or
`N > L`; in particular `plan L 0` fails this way for every `L`. -/
theorem spec_C6_plan_invalid (L N : Nat) :
    ((N = 0 ∨ L < N) → plan L N = .error .InvalidConfiguration) ∧
    plan L 0 = .error .InvalidConfiguration := by
  constructor
  · intro h
    rw [plan, if_pos h]
  · rw [plan, if_pos (Or.inl rfl)]

/-- C6, witness: `plan 5 7` (more workers than elements) and `plan 3 0`
both fail with `InvalidConfiguration`. -/
theorem spec_C6_witness :
    plan 5 7 = .error .InvalidConfiguration ∧
    plan 3 0 = .error .InvalidConfiguration :=
  ⟨(spec_C6_plan_invalid 5 7).1 (Or.inr (by decide)), (spec_C6_plan_invalid 3 0).2⟩

/-- C7 (spec-modelled): if any of the `NTHR` spawn attempts fails, the run
aborts with `ThreadCreationFailed` and produces no (partial) result. -/
theorem spec_C7_spawn_fatal (errs : Nat → Int) (nums : Nat → Int)
    (h : ∃ i, i < NTHR ∧ errs i ≠ 0) :
    runSort errs nums = .error .ThreadCreationFailed := by
  obtain ⟨i, hi, hne⟩ := h
  have hloop := spawnLoop_mem_error errs (List.range NTHR) i (List.mem_range.mpr hi) hne
  rw [runSort, hloop]

/-- C7, witness: a run in which every spawn fails aborts with
`ThreadCreationFailed`. -/
theorem spec_C7_witness :
    runSort (fun _ => 1) (fun _ => 0) = .error .ThreadCreationFailed :=
  spec_C7_spawn_fatal (fun _ => 1) (fun _ => 0)
    ⟨0, by decide, show (1 : Int) ≠ 0 by decide⟩

/-- C8: the concrete scenario — input `[5, 3, 8, 1, 9, 2, 7, 4]`, `N = 2`:
the plan yields `[(0, 4), (4, 4)]`, the workers sort their chunks to
`[1, 3, 5, 8]` and `[2, 4, 7, 9]`, and the merge over the two sorted
chunks outputs `[1, 2, 3, 4, 5, 7, 8, 9]`. -/
theorem spec_C8_scenario :
    plan 8 2 = .ok [(0, 4), (4, 4)] ∧
    workerSort [5, 3, 8, 1] = [1, 3, 5, 8] ∧
    workerSort [9, 2, 7, 4] = [2, 4, 7, 9] ∧
    merge 2 4 8 c8 = [1, 2, 3, 4, 5, 7, 8, 9] := by
  refine ⟨rfl, by decide, by decide, ?_⟩
  show (mergeIter 2 4 c8 8).snums = _
  rw [c8_state8]

/-- C9: for every buffer (sentinel elements included), every buffer read
`NUMS[idx[minidx]]` performed by the merge uses an index in `[0, NUMNUM)`,
and the merge output has length exactly `NUMNUM` — even in iterations where
the scan rejects every cursor and `minidx` keeps its default `0`. -/
theorem spec_C9_read_safe (nums : Nat → Int) :
    (∀ t, t < NUMNUM → readIndex NTHR TNUM nums t < NUMNUM) ∧
    (merge NTHR TNUM NUMNUM nums).length = NUMNUM := by
  constructor
  · intro t ht
    have e : NTHR * TNUM = NUMNUM := rfl
    have h := merge_read_safe NTHR TNUM nums (by decide) t (by rw [e]; exact ht)
    rw [e] at h
    exact h
  · exact mergeIter_snums_length NTHR TNUM nums NUMNUM

/-- C9, witness: at the all-sentinel buffer (where the fallback branch is
taken in every iteration after the first read), iteration 0 reads in
bounds and the output length is `NUMNUM`. -/
theorem spec_C9_witness :
    readIndex NTHR TNUM (fun _ => longMax) 0 < NUMNUM ∧
    (merge NTHR TNUM NUMNUM (fun _ => longMax)).length = NUMNUM :=
  ⟨(spec_C9_read_safe (fun _ => longMax)).1 0 (by decide),
   (spec_C9_read_safe (fun _ => longMax)).2⟩

/-- C10: the initialization loop writes `rand` values only to indices
`0 .. NUMNUM - 2`; the element at index `NUMNUM - 1` keeps its static
initial value `0`, so the buffer's multiset always contains a `0`. -/
theorem spec_C10_last_zero (rand : Nat → Int) :
    (∀ j, j < NUMNUM - 1 → initNums rand j = rand j) ∧
    initNums rand (NUMNUM - 1) = 0 ∧
    (0 : Int) ∈ (List.range NUMNUM).map (initNums rand) := by
  refine ⟨fun j hj => ?_, ?_, ?_⟩
  · rw [initNums, writeLoop_eval, if_pos hj]
  · rw [initNums, writeLoop_eval, if_neg (lt_irrefl _)]
  · refine List.mem_map.mpr ⟨NUMNUM - 1, List.mem_range.mpr (by decide), ?_⟩
    rw [initNums, writeLoop_eval, if_neg (lt_irrefl _)]

/-- C10, witness: with the constant random stream `1`, index 0 receives the
random value and the last index stays `0`. -/
theorem spec_C10_witness :
    initNums (fun _ => 1) 0 = 1 ∧ initNums (fun _ => 1) (NUMNUM - 1) = 0 :=
  ⟨(spec_C10_last_zero (fun _ => 1)).1 0 (by decide),
   (spec_C10_last_zero (fun _ => 1)).2.1⟩
